import Mathlib

/-!
Shallow embedding of the peerrs-binarypack codec
(src/binarypack.rs and src/error.rs of the repository).

Modelling conventions:
* a Rust byte (u8) is a `Nat` together with the wellformedness predicate
  `WfBytes` (every byte `< 256`); a byte slice is a `List Nat`;
* machine integers are `Nat` (unsigned) or `Int` (signed), with an explicit
  `% 2 ^ (8 * w)` exactly where the Rust arithmetic could wrap;
* Rust `Result<T>` is `Except Error T`;
* the possibility of an abort (a failed `unwrap`, an `unimplemented!`) is an
  outer `Option`: `none` is an abort, `some` a normal return.  The decoder
  additionally threads a fuel argument (structural recursion on `Nat`); fuel
  exhaustion is also mapped to `none`, and the totality theorem below shows
  that with fuel `data.length + 1` neither `none` case is ever reached;
* `f32` / `f64` payloads are carried as their IEEE-754 bit patterns, which is
  exactly what the decoder manipulates (it reads the big-endian unsigned
  integer and transmutes the bits);
* `HashMap<Unpacked, Unpacked>` is modelled as the list of its stored
  entries, in the (unspecified, instance-dependent) order in which the map
  iterates them; `HashMap::insert` locates an existing entry by the key's
  hash first and then by eq — with this type's `Debug`-string `Hash` impl,
  which is not consistent with its `PartialEq`, an eq-equal key whose
  hasher byte stream differs is therefore stored as a second entry rather
  than replaced.
-/

namespace BinaryPack

/-- src/error.rs: the decode-time error enum, with exactly two kinds. -/
inductive Error where
  | endOfData
  | stringParseError
deriving DecidableEq

/-- src/binarypack.rs, enum `Unpacked`: the value model.  Float / Double carry
the IEEE-754 bit pattern of the `f32` / `f64`; String carries the UTF-8 bytes
of the Rust `String`; Map carries the stored entries of the `HashMap` in its
iteration order. -/
inductive Unpacked where
  | Uint8 (v : Nat)
  | Uint16 (v : Nat)
  | Uint32 (v : Nat)
  | Uint64 (v : Nat)
  | Int8 (v : Int)
  | Int16 (v : Int)
  | Int32 (v : Int)
  | Int64 (v : Int)
  | Float (bits : Nat)
  | Double (bits : Nat)
  | Bool (b : Bool)
  | Raw (bytes : List Nat)
  | String (bytes : List Nat)
  | Null
  | Undefined
  | Array (elems : List Unpacked)
  | Map (entries : List (Unpacked × Unpacked))

mutual
/-- Structural size of a value (1 per constructor), the depth bound fed to
the bounded recursions below. -/
def usize : Unpacked → Nat
  | .Array xs => 1 + usizeList xs
  | .Map es => 1 + usizePList es
  | _ => 1

/-- Summed size of a list of values. -/
def usizeList : List Unpacked → Nat
  | [] => 0
  | x :: xs => usize x + usizeList xs

/-- Summed size of a list of map entries. -/
def usizePList : List (Unpacked × Unpacked) → Nat
  | [] => 0
  | (k, v) :: es => usize k + usize v + usizePList es
end

/-- IEEE-754 binary32: the bit pattern is a NaN (exponent all ones, nonzero
mantissa).  Used to model Rust `f32` equality `a == b`. -/
def isNaN32 (a : Nat) : Bool :=
  (a / 2 ^ 23) % 2 ^ 8 == 0xFF && a % 2 ^ 23 != 0

/-- IEEE-754 binary64 NaN test on the bit pattern. -/
def isNaN64 (a : Nat) : Bool :=
  (a / 2 ^ 52) % 2 ^ 11 == 0x7FF && a % 2 ^ 52 != 0

/-- Rust `f32` equality `a == b` on bit patterns: false if either side is a
NaN; `+0.0 == -0.0`; otherwise equal bit patterns. -/
def f32Eq (a b : Nat) : Bool :=
  if isNaN32 a || isNaN32 b then false
  else if a % 2 ^ 31 == 0 && b % 2 ^ 31 == 0 then true
  else a == b

/-- Rust `f64` equality `a == b` on bit patterns. -/
def f64Eq (a b : Nat) : Bool :=
  if isNaN64 a || isNaN64 b then false
  else if a % 2 ^ 63 == 0 && b % 2 ^ 63 == 0 then true
  else a == b

/-- Pairwise element equality of the `Array` arm of `impl PartialEq for
Unpacked` (the source first compares lengths, then elements in order);
the element comparison is abstracted so the whole family can recurse on
an explicit depth bound. -/
def eqElemsAux (e : Unpacked → Unpacked → Bool) :
    List Unpacked → List Unpacked → Bool
  | [], [] => true
  | x :: xs, y :: ys => e x y && eqElemsAux e xs ys
  | _, _ => false

/-- The `b.get(k)` + value-comparison step of the `Map` arm of
`impl PartialEq`: find the entry of `b` whose stored key equals `k`
(`HashMap::get` under its documented eq-based semantics) and compare its
value with `av` (the source compares `b_v == a_v`). -/
def findEqAux (e : Unpacked → Unpacked → Bool) (k av : Unpacked) :
    List (Unpacked × Unpacked) → Bool
  | [] => false
  | (k2, v2) :: rest => if e k2 k then e v2 av else findEqAux e k av rest

/-- The `Map` arm loop of `impl PartialEq`: every entry `(k, a_v)` of `a`
must be found in `b` with an equal value. -/
def eqEntriesAux (e : Unpacked → Unpacked → Bool) :
    List (Unpacked × Unpacked) → List (Unpacked × Unpacked) → Bool
  | [], _ => true
  | (k, av) :: rest, b => findEqAux e k av b && eqEntriesAux e rest b

/-- `impl PartialEq for Unpacked`, with an explicit structural depth bound
(every recursive comparison is on strictly smaller values, so the bound
`usize x + usize y` used by `eqU` below can never be exhausted; exhaustion
would answer `false`; every recursive call of the source compares values
drawn from the two compared trees, each strictly smaller).  Note the
deliberate mirror of the source: the
catch-all arm makes `Undefined == Undefined` false, Float / Double use IEEE
equality, Array compares length then pairwise, Map compares length and then
looks every key of the left map up in the right one. -/
def eqUF : Nat → Unpacked → Unpacked → Bool
  | 0, _, _ => false
  | fuel+1, x, y =>
    match x, y with
    | .Bool a, .Bool b => a == b
    | .Uint8 a, .Uint8 b => a == b
    | .Uint16 a, .Uint16 b => a == b
    | .Uint32 a, .Uint32 b => a == b
    | .Uint64 a, .Uint64 b => a == b
    | .Int8 a, .Int8 b => a == b
    | .Int16 a, .Int16 b => a == b
    | .Int32 a, .Int32 b => a == b
    | .Int64 a, .Int64 b => a == b
    | .Float a, .Float b => f32Eq a b
    | .Double a, .Double b => f64Eq a b
    | .Raw a, .Raw b => a == b
    | .String a, .String b => a == b
    | .Null, .Null => true
    | .Array a, .Array b => a.length == b.length && eqElemsAux (eqUF fuel) a b
    | .Map a, .Map b => a.length == b.length && eqEntriesAux (eqUF fuel) a b
    | _, _ => false

/-- Structural equality of `Unpacked` values, i.e. `impl PartialEq for
Unpacked` of src/binarypack.rs. -/
def eqU (x y : Unpacked) : Bool := eqUF (usize x + usize y) x y

/-- Comma-and-space separated concatenation, as the std `Debug` formatting
of sequences produces. -/
def joinComma : List String → String
  | [] => ""
  | [s] => s
  | s :: rest => s ++ ", " ++ joinComma rest

/-- Render a byte list as the ASCII string it spells (the repository only
formats printable-ASCII string content; std `Debug` escaping of other
characters is not load-bearing for any claim). -/
def asciiOf (bs : List Nat) : String := String.mk (bs.map Char.ofNat)

/-- The `format!` rendering of an `Unpacked` value produced by
`#[derive(Debug)]` (depth-bounded like `eqUF`; the bound `usize v` used by
`hashInput` is never exhausted).  A `Vec` renders as `[a, b]`, a `HashMap`
renders its entries as `k: v` inside braces **in the iteration order of the
instance** (the modelled entry list).  Float / Double are rendered from
their bit pattern; std prints a decimal form that distinguishes distinct
bit patterns of finite values, which is all any claim relies on. -/
def debugStrF : Nat → Unpacked → String
  | 0, _ => ""
  | fuel+1, v =>
    match v with
    | .Uint8 a => "Uint8(" ++ toString a ++ ")"
    | .Uint16 a => "Uint16(" ++ toString a ++ ")"
    | .Uint32 a => "Uint32(" ++ toString a ++ ")"
    | .Uint64 a => "Uint64(" ++ toString a ++ ")"
    | .Int8 a => "Int8(" ++ toString a ++ ")"
    | .Int16 a => "Int16(" ++ toString a ++ ")"
    | .Int32 a => "Int32(" ++ toString a ++ ")"
    | .Int64 a => "Int64(" ++ toString a ++ ")"
    | .Float a => "Float(bits " ++ toString a ++ ")"
    | .Double a => "Double(bits " ++ toString a ++ ")"
    | .Bool b => "Bool(" ++ toString b ++ ")"
    | .Raw bs => "Raw([" ++ joinComma (bs.map toString) ++ "])"
    | .String bs => "String(\"" ++ asciiOf bs ++ "\")"
    | .Null => "Null"
    | .Undefined => "Undefined"
    | .Array xs => "Array([" ++ joinComma (xs.map (debugStrF fuel)) ++ "])"
    | .Map es =>
      "Map(\x7b" ++
        joinComma (es.map
          (fun p => debugStrF fuel p.1 ++ ": " ++ debugStrF fuel p.2)) ++
      "\x7d)"

/-- The byte stream that `impl Hash for Unpacked` feeds to the hasher:
`state.write(format!("{:?}", self).as_bytes())`.  Two values receive equal
hashes from every hasher when this stream coincides, and a generic hasher
gives different hashes when it differs. -/
def hashInput (v : Unpacked) : String := debugStrF (usize v) v

/-- `HashMap::insert` on the modelled entry list, hash-first as the real map
is: the map locates candidate entries by the new key's hash — here the byte
stream `hashInput` that the `Hash` impl feeds the hasher; distinct streams
give distinct 64-bit hashes and land apart — and then eq-compares.  A stored
key matching in **both** hash and eq has its value replaced (the stored key
is kept, as documented); otherwise the entry is appended, which is how an
eq-equal key whose `Debug` string differs (possible because this `Hash`
impl is inconsistent with `PartialEq`) ends up as a duplicate. -/
def insertU (m : List (Unpacked × Unpacked)) (k v : Unpacked) :
    List (Unpacked × Unpacked) :=
  match m with
  | [] => [(k, v)]
  | (k2, v2) :: rest =>
    if hashInput k2 == hashInput k && eqU k2 k then (k2, v) :: rest
    else (k2, v2) :: insertU rest k v

/-- `HashMap::get` on the modelled entry list, hash-first like `insertU`:
only an entry matching in both hash and eq is found. -/
def lookupU (m : List (Unpacked × Unpacked)) (k : Unpacked) :
    Option Unpacked :=
  match m with
  | [] => none
  | (k2, v2) :: rest =>
    if hashInput k2 == hashInput k && eqU k2 k then some v2
    else lookupU rest k

/-- Every byte of the slice is an actual `u8` value. -/
abbrev WfBytes (data : List Nat) : Prop := ∀ b ∈ data, b < 256

/-- `Unpacker::unpack_unsigned::<T>` for `T` of byte width `w`: check the
remaining length, take `w` bytes, convert each with `T::from(byte).unwrap()`
(a conversion that fails — a panic, modelled `none` — exactly when the byte
does not fit in `T`), and accumulate `val = val * shift + digit` where
`shift` is `T::from(256).unwrap_or(0)` (0 exactly when `T` is one byte
wide); each accumulation step wraps at the width of `T`. -/
def unpack_unsigned (w : Nat) (data : List Nat) :
    Option (Except Error (Nat × List Nat)) :=
  if data.length < w then some (.error .endOfData)
  else
    let digits := data.take w
    if digits.all (fun b => decide (b < 2 ^ (8 * w))) then
      let shift := if 256 < 2 ^ (8 * w) then 256 else 0
      some (.ok
        (digits.foldl (fun v d => (v * shift + d) % 2 ^ (8 * w)) 0,
         data.drop w))
    else none

/-- Reinterpret the `w`-byte unsigned value `n` as a two's-complement signed
integer of the same width (the `as i8` / `as i16` / `as i32` / `as i64`
casts of `unpack_int8` .. `unpack_int64`). -/
def asSigned (w : Nat) (n : Nat) : Int :=
  if n < 2 ^ (8 * w - 1) then (n : Int) else (n : Int) - 2 ^ (8 * w)

/-- `Unpacker::unpack_raw`: check the remaining length, return `size` bytes
and advance. -/
def unpack_raw (size : Nat) (data : List Nat) :
    Option (Except Error (List Nat × List Nat)) :=
  if data.length < size then some (.error .endOfData)
  else some (.ok (data.take size, data.drop size))

/-- Byte lies in the closed range. -/
def byteIn (lo hi b : Nat) : Bool := decide (lo ≤ b) && decide (b ≤ hi)

/-- UTF-8 continuation byte. -/
def isCont (b : Nat) : Bool := byteIn 0x80 0xBF b

/-- Modelled from Rust std `String::from_utf8` (not part of this repository):
UTF-8 validity of a byte sequence per RFC 3629 — no overlong forms, no
surrogates, maximum scalar value 0x10FFFF. -/
def validUtf8 : List Nat → Bool
  | [] => true
  | b :: rest =>
    if b ≤ 0x7F then validUtf8 rest
    else if byteIn 0xC2 0xDF b then
      match rest with
      | c1 :: r => isCont c1 && validUtf8 r
      | _ => false
    else if b == 0xE0 then
      match rest with
      | c1 :: c2 :: r => byteIn 0xA0 0xBF c1 && isCont c2 && validUtf8 r
      | _ => false
    else if byteIn 0xE1 0xEC b then
      match rest with
      | c1 :: c2 :: r => isCont c1 && isCont c2 && validUtf8 r
      | _ => false
    else if b == 0xED then
      match rest with
      | c1 :: c2 :: r => byteIn 0x80 0x9F c1 && isCont c2 && validUtf8 r
      | _ => false
    else if byteIn 0xEE 0xEF b then
      match rest with
      | c1 :: c2 :: r => isCont c1 && isCont c2 && validUtf8 r
      | _ => false
    else if b == 0xF0 then
      match rest with
      | c1 :: c2 :: c3 :: r =>
        byteIn 0x90 0xBF c1 && isCont c2 && isCont c3 && validUtf8 r
      | _ => false
    else if byteIn 0xF1 0xF3 b then
      match rest with
      | c1 :: c2 :: c3 :: r =>
        isCont c1 && isCont c2 && isCont c3 && validUtf8 r
      | _ => false
    else if b == 0xF4 then
      match rest with
      | c1 :: c2 :: c3 :: r =>
        byteIn 0x80 0x8F c1 && isCont c2 && isCont c3 && validUtf8 r
      | _ => false
    else false

/-- The `?` operator of the source on a cursor-returning computation:
propagate an abort (`none`) or an error, continue on success. -/
def obind {α β : Type} (x : Option (Except Error (α × List Nat)))
    (f : α → List Nat → Option (Except Error (β × List Nat))) :
    Option (Except Error (β × List Nat)) :=
  match x with
  | none => none
  | some (.error e) => some (.error e)
  | some (.ok (a, rest)) => f a rest

/-- `Unpacker::unpack_string`: read `size` raw bytes, then
`String::from_utf8`, converting a UTF-8 failure into
`Error::StringParseError` via the `From<FromUtf8Error>` impl of
src/error.rs. -/
def unpack_string (size : Nat) (data : List Nat) :
    Option (Except Error (List Nat × List Nat)) :=
  obind (unpack_raw size data) fun bytes rest =>
    if validUtf8 bytes then some (.ok (bytes, rest))
    else some (.error .stringParseError)

/-- One numeric arm of `Unpacker::unpack`: read a `w`-byte unsigned value and
wrap it with the constructor `g` (which performs the signed reinterpretation
or the float bit transmute where the source does). -/
def readNum (w : Nat) (g : Nat → Unpacked) (data : List Nat) :
    Option (Except Error (Unpacked × List Nat)) :=
  obind (unpack_unsigned w data) fun n rest => some (.ok (g n, rest))

/-- A fixed-size raw arm of `Unpacker::unpack`. -/
def readRawV (size : Nat) (data : List Nat) :
    Option (Except Error (Unpacked × List Nat)) :=
  obind (unpack_raw size data) fun bs rest => some (.ok (.Raw bs, rest))

/-- A fixed-size string arm of `Unpacker::unpack`. -/
def readStrV (size : Nat) (data : List Nat) :
    Option (Except Error (Unpacked × List Nat)) :=
  obind (unpack_string size data) fun s rest => some (.ok (.String s, rest))

/-- A length-prefixed string arm of `Unpacker::unpack` (tags 0xD8 / 0xD9):
read the `w`-byte length, then the string. -/
def readSizedStr (w : Nat) (data : List Nat) :
    Option (Except Error (Unpacked × List Nat)) :=
  obind (unpack_unsigned w data) fun size rest => readStrV size rest

/-- A length-prefixed raw arm of `Unpacker::unpack` (tags 0xDA / 0xDB). -/
def readSizedRaw (w : Nat) (data : List Nat) :
    Option (Except Error (Unpacked × List Nat)) :=
  obind (unpack_unsigned w data) fun size rest => readRawV size rest

/-- `Unpacker::unpack_array` for a given element decoder `u`: decode `size`
values in sequence, collecting them in order. -/
def unpack_array (u : List Nat → Option (Except Error (Unpacked × List Nat))) :
    Nat → List Nat → Option (Except Error (List Unpacked × List Nat))
  | 0, data => some (.ok ([], data))
  | size+1, data =>
    obind (u data) fun v rest =>
      obind (unpack_array u size rest) fun vs rest2 =>
        some (.ok (v :: vs, rest2))

/-- `Unpacker::unpack_map` for a given element decoder `u`: decode `size`
key/value pairs, inserting each into the map. -/
def unpack_map (u : List Nat → Option (Except Error (Unpacked × List Nat))) :
    Nat → List Nat → List (Unpacked × Unpacked) →
    Option (Except Error (List (Unpacked × Unpacked) × List Nat))
  | 0, data, acc => some (.ok (acc, data))
  | size+1, data, acc =>
    obind (u data) fun k r1 =>
      obind (u r1) fun v r2 =>
        unpack_map u size r2 (insertU acc k v)

/-- The fixed-size or length-resolved array arm of `Unpacker::unpack`. -/
def readArr (u : List Nat → Option (Except Error (Unpacked × List Nat)))
    (size : Nat) (data : List Nat) :
    Option (Except Error (Unpacked × List Nat)) :=
  obind (unpack_array u size data) fun vs rest => some (.ok (.Array vs, rest))

/-- The fixed-size or length-resolved map arm of `Unpacker::unpack` (the
source starts from `HashMap::new()`, the empty accumulator). -/
def readMap (u : List Nat → Option (Except Error (Unpacked × List Nat)))
    (size : Nat) (data : List Nat) :
    Option (Except Error (Unpacked × List Nat)) :=
  obind (unpack_map u size data []) fun m rest => some (.ok (.Map m, rest))

/-- A length-prefixed array arm of `Unpacker::unpack` (tags 0xDC / 0xDD). -/
def readSizedArr (u : List Nat → Option (Except Error (Unpacked × List Nat)))
    (w : Nat) (data : List Nat) :
    Option (Except Error (Unpacked × List Nat)) :=
  obind (unpack_unsigned w data) fun size rest => readArr u size rest

/-- A length-prefixed map arm of `Unpacker::unpack` (tags 0xDE / 0xDF). -/
def readSizedMap (u : List Nat → Option (Except Error (Unpacked × List Nat)))
    (w : Nat) (data : List Nat) :
    Option (Except Error (Unpacked × List Nat)) :=
  obind (unpack_unsigned w data) fun size rest => readMap u size rest

/-- One dispatch step of `Unpacker::unpack`, with `u` standing for the
recursive call used for container elements.  Mirrors the source order:
read the tag via `unpack_uint8`; positive fixint; negative fixint; fixed
map / array / raw / string (low nibble size); then the explicit tag table
with `Undefined` as the catch-all. -/
def unpackStep (u : List Nat → Option (Except Error (Unpacked × List Nat)))
    (data : List Nat) : Option (Except Error (Unpacked × List Nat)) :=
  obind (unpack_unsigned 1 data) fun t r0 =>
    if t < 0x80 then some (.ok (.Uint8 t, r0))
    else if t ^^^ 0xE0 < 0x20 then
      some (.ok (.Int8 (((t ^^^ 0xE0 : Nat) : Int) - 0x20), r0))
    else if t ^^^ 0x80 ≤ 0x0F then readMap u (t ^^^ 0x80) r0
    else if t ^^^ 0x90 ≤ 0x0F then readArr u (t ^^^ 0x90) r0
    else if t ^^^ 0xA0 ≤ 0x0F then readRawV (t ^^^ 0xA0) r0
    else if t ^^^ 0xB0 ≤ 0x0F then readStrV (t ^^^ 0xB0) r0
    else if t = 0xC0 then some (.ok (.Null, r0))
    else if t = 0xC2 then some (.ok (.Bool false, r0))
    else if t = 0xC3 then some (.ok (.Bool true, r0))
    else if t = 0xCA then readNum 4 Unpacked.Float r0
    else if t = 0xCB then readNum 8 Unpacked.Double r0
    else if t = 0xCC then readNum 1 Unpacked.Uint8 r0
    else if t = 0xCD then readNum 2 Unpacked.Uint16 r0
    else if t = 0xCE then readNum 4 Unpacked.Uint32 r0
    else if t = 0xCF then readNum 8 Unpacked.Uint64 r0
    else if t = 0xD0 then readNum 1 (fun n => .Int8 (asSigned 1 n)) r0
    else if t = 0xD1 then readNum 2 (fun n => .Int16 (asSigned 2 n)) r0
    else if t = 0xD2 then readNum 4 (fun n => .Int32 (asSigned 4 n)) r0
    else if t = 0xD3 then readNum 8 (fun n => .Int64 (asSigned 8 n)) r0
    else if t = 0xD8 then readSizedStr 2 r0
    else if t = 0xD9 then readSizedStr 4 r0
    else if t = 0xDA then readSizedRaw 2 r0
    else if t = 0xDB then readSizedRaw 4 r0
    else if t = 0xDC then readSizedArr u 2 r0
    else if t = 0xDD then readSizedArr u 4 r0
    else if t = 0xDE then readSizedMap u 2 r0
    else if t = 0xDF then readSizedMap u 4 r0
    else some (.ok (.Undefined, r0))

/-- `Unpacker::unpack`, recursion bounded by fuel (one unit per nested value;
the totality theorem shows `data.length + 1` units always suffice). -/
def unpackF : Nat → List Nat → Option (Except Error (Unpacked × List Nat))
  | 0, _ => none
  | fuel+1, data => unpackStep (unpackF fuel) data

/-- The public entry point `unpack(data)` of src/binarypack.rs (the leftover
bytes of the `Unpacker` cursor are discarded, trailing bytes are not an
error). -/
def unpack (data : List Nat) : Option (Except Error Unpacked) :=
  match unpackF (data.length + 1) data with
  | none => none
  | some (.error e) => some (.error e)
  | some (.ok (v, _)) => some (.ok v)

/-- Little-endian byte list of the `w`-byte value `n` (the in-memory layout
that `mem::transmute` exposes on the little-endian targets the crate
supports). -/
def leBytes : Nat → Nat → List Nat
  | 0, _ => []
  | w+1, n => n % 256 :: leBytes w (n / 256)

/-- `Unpacked::pack` from the test module of src/binarypack.rs: the encoder.
Arms the source leaves as `unimplemented!()` (Raw, String, Array, Map, all
signed integers, Uint32, Uint64, Undefined) abort, modelled as `none`.
Multi-byte payloads are emitted by transmuting to bytes and pushing them in
reverse (big-endian on a little-endian target). -/
def pack : Unpacked → Option (List Nat)
  | .Uint8 a => if a < 0x80 then some [a] else some [0xCC, a]
  | .Uint16 a => some (0xCD :: (leBytes 2 a).reverse)
  | .Float f => some (0xCA :: (leBytes 4 f).reverse)
  | .Double f => some (0xCB :: (leBytes 8 f).reverse)
  | .Bool true => some [0xC3]
  | .Bool false => some [0xC2]
  | .Null => some [0xC0]
  | _ => none


/-- The big-endian accumulation the spec describes for the multi-byte
unsigned readers: iterate `value = value * 256 + next_byte` over the bytes,
starting from 0.  Stated from the spec wording, to be compared with the
source translation `unpack_unsigned`. -/
def beVal (l : List Nat) : Nat := l.foldl (fun v d => v * 256 + d) 0

/-- Specification shape of one decode arm operating after the tag byte:
on wellformed input below the bound it returns (no abort), and a success
leaves a wellformed cursor that has not moved backwards. -/
def ArmOk (B : Nat)
    (f : List Nat → Option (Except Error (Unpacked × List Nat))) : Prop :=
  ∀ d, WfBytes d → d.length < B →
    ∃ r, f d = some r ∧
      ∀ v rest, r = Except.ok (v, rest) → WfBytes rest ∧ rest.length ≤ d.length

/-- Specification shape of a whole-value decoder: as `ArmOk`, but a success
strictly consumes input (at least the tag byte). -/
def UOk (B : Nat)
    (u : List Nat → Option (Except Error (Unpacked × List Nat))) : Prop :=
  ∀ d, WfBytes d → d.length < B →
    ∃ r, u d = some r ∧
      ∀ v rest, r = Except.ok (v, rest) → WfBytes rest ∧ rest.length < d.length

section Lemmas

@[simp] theorem obind_none {α β : Type}
    (f : α → List Nat → Option (Except Error (β × List Nat))) :
    obind none f = none := rfl

@[simp] theorem obind_some_error {α β : Type} (e : Error)
    (f : α → List Nat → Option (Except Error (β × List Nat))) :
    obind (some (.error e)) f = some (.error e) := rfl

@[simp] theorem obind_some_ok {α β : Type} (a : α) (rest : List Nat)
    (f : α → List Nat → Option (Except Error (β × List Nat))) :
    obind (some (.ok (a, rest))) f = f a rest := rfl

theorem wf_take {data : List Nat} (h : WfBytes data) (n : Nat) :
    WfBytes (data.take n) :=
  fun b hb => h b (List.take_subset n data hb)

theorem wf_drop {data : List Nat} (h : WfBytes data) (n : Nat) :
    WfBytes (data.drop n) :=
  fun b hb => h b (List.drop_subset n data hb)

/-- On wellformed bytes the unsigned reader never aborts: it reports
`EndOfData` exactly when fewer than `w` bytes remain, and otherwise
consumes exactly `w` bytes. -/
theorem unpack_unsigned_total (w : Nat) (data : List Nat) (hw : 1 ≤ w)
    (h : WfBytes data) :
    (unpack_unsigned w data = some (.error .endOfData) ∧ data.length < w) ∨
    (∃ n, unpack_unsigned w data = some (.ok (n, data.drop w)) ∧
      w ≤ data.length) := by
  unfold unpack_unsigned
  by_cases hlen : data.length < w
  · left
    simp [hlen]
  · right
    have hall : (data.take w).all (fun b => decide (b < 2 ^ (8 * w))) = true := by
      simp only [List.all_eq_true, decide_eq_true_eq]
      intro b hb
      have hb2 : b < 256 := h b (List.take_subset w data hb)
      have h8 : (256 : Nat) ≤ 2 ^ (8 * w) := by
        calc (256 : Nat) = 2 ^ 8 := by norm_num
          _ ≤ 2 ^ (8 * w) := Nat.pow_le_pow_right (by norm_num) (by omega)
      omega
    refine ⟨(data.take w).foldl
        (fun v d => (v * (if 256 < 2 ^ (8 * w) then 256 else 0) + d) %
          2 ^ (8 * w)) 0, ?_, ?_⟩
    · simp [hlen, hall]
    · omega

theorem unpack_raw_total (size : Nat) (data : List Nat) :
    (unpack_raw size data = some (.error .endOfData) ∧ data.length < size) ∨
    (unpack_raw size data = some (.ok (data.take size, data.drop size)) ∧
      size ≤ data.length) := by
  unfold unpack_raw
  by_cases hlen : data.length < size
  · left; simp [hlen]
  · right; simp [hlen]; omega

theorem unpack_string_total (size : Nat) (data : List Nat) :
    (∃ e, unpack_string size data = some (.error e)) ∨
    (∃ s, unpack_string size data = some (.ok (s, data.drop size)) ∧
      size ≤ data.length) := by
  unfold unpack_string
  rcases unpack_raw_total size data with ⟨heq, _⟩ | ⟨heq, hle⟩
  · rw [heq]; exact Or.inl ⟨_, rfl⟩
  · rw [heq]
    by_cases hv : validUtf8 (data.take size)
    · refine Or.inr ⟨data.take size, ?_, hle⟩
      simp [hv]
    · refine Or.inl ⟨Error.stringParseError, ?_⟩
      simp [hv]

theorem foldl_be (l : List Nat) (acc : Nat) :
    l.foldl (fun v d => v * 256 + d) acc = acc * 256 ^ l.length + beVal l := by
  induction l generalizing acc with
  | nil => simp [beVal]
  | cons d l ih =>
    have hd : beVal (d :: l) = d * 256 ^ l.length + beVal l := by
      show List.foldl (fun v d => v * 256 + d) (0 * 256 + d) l = _
      rw [ih]
      ring_nf
    simp only [List.foldl_cons, List.length_cons]
    rw [ih, hd]
    ring

theorem beVal_lt {l : List Nat} (h : ∀ b ∈ l, b < 256) :
    beVal l < 256 ^ l.length := by
  induction l with
  | nil => simp [beVal]
  | cons d l ih =>
    have hd : beVal (d :: l) = d * 256 ^ l.length + beVal l := by
      show List.foldl (fun v d => v * 256 + d) (0 * 256 + d) l = _
      rw [foldl_be]
      ring_nf
    have hdl : d < 256 := h d (by simp)
    have hl : beVal l < 256 ^ l.length := ih fun b hb => h b (by simp [hb])
    have hpow : (d + 1) * 256 ^ l.length ≤ 256 * 256 ^ l.length :=
      Nat.mul_le_mul_right _ (by omega)
    calc beVal (d :: l) = d * 256 ^ l.length + beVal l := hd
      _ < d * 256 ^ l.length + 256 ^ l.length := by omega
      _ = (d + 1) * 256 ^ l.length := by ring
      _ ≤ 256 * 256 ^ l.length := hpow
      _ = 256 ^ (d :: l).length := by simp [List.length_cons]; ring

theorem foldl_mod (l : List Nat) (acc M : Nat) (h : ∀ b ∈ l, b < 256)
    (hM : acc * 256 ^ l.length + beVal l < M) :
    l.foldl (fun v d => (v * 256 + d) % M) acc =
      l.foldl (fun v d => v * 256 + d) acc := by
  induction l generalizing acc with
  | nil => rfl
  | cons d l ih =>
    have hd : beVal (d :: l) = d * 256 ^ l.length + beVal l := by
      show List.foldl (fun v d => v * 256 + d) (0 * 256 + d) l = _
      rw [foldl_be]
      ring_nf
    have hpow : 1 ≤ 256 ^ l.length := Nat.one_le_pow _ _ (by norm_num)
    have hexp : acc * 256 ^ (d :: l).length + beVal (d :: l) =
        (acc * 256 + d) * 256 ^ l.length + beVal l := by
      rw [hd]; simp [List.length_cons]; ring
    have hsmall : acc * 256 + d < M := by
      have h1 : acc * 256 + d ≤ (acc * 256 + d) * 256 ^ l.length :=
        Nat.le_mul_of_pos_right _ (by omega)
      have h2 : (acc * 256 + d) * 256 ^ l.length + beVal l < M := by
        rw [← hexp]; exact hM
      omega
    simp only [List.foldl_cons]
    rw [Nat.mod_eq_of_lt hsmall]
    exact ih (acc * 256 + d) (fun b hb => h b (by simp [hb]))
      (by rw [← hexp]; exact hM)

/-- On wellformed input with at least `w ≥ 1` bytes available, the source's
shift-and-wrap accumulation computes exactly the big-endian value of the
first `w` bytes (no wrap ever takes effect), at every width uniformly. -/
theorem unpack_unsigned_be (w : Nat) (data : List Nat) (hw : 1 ≤ w)
    (h : WfBytes data) (hlen : w ≤ data.length) :
    unpack_unsigned w data =
      some (.ok (beVal (data.take w), data.drop w)) ∧
    beVal (data.take w) < 2 ^ (8 * w) := by
  have htl : (data.take w).length = w := by
    rw [List.length_take]; omega
  have htw : ∀ b ∈ data.take w, b < 256 :=
    fun b hb => h b (List.take_subset w data hb)
  have hbe : beVal (data.take w) < 2 ^ (8 * w) := by
    have h1 := beVal_lt htw
    rw [htl] at h1
    have h2 : (256 : Nat) ^ w = 2 ^ (8 * w) := by
      rw [show (256 : Nat) = 2 ^ 8 by norm_num, ← Nat.pow_mul]
    omega
  refine ⟨?_, hbe⟩
  unfold unpack_unsigned
  rw [if_neg (by omega)]
  have hall : (data.take w).all (fun b => decide (b < 2 ^ (8 * w))) = true := by
    simp only [List.all_eq_true, decide_eq_true_eq]
    intro b hb
    have h8 : (256 : Nat) ≤ 2 ^ (8 * w) := by
      calc (256 : Nat) = 2 ^ 8 := by norm_num
        _ ≤ 2 ^ (8 * w) := Nat.pow_le_pow_right (by norm_num) (by omega)
    have := htw b hb
    omega
  simp only [hall, if_pos]
  rcases Nat.lt_or_ge w 2 with hw1 | hw2
  · -- w = 1: the shift is T::from(256).unwrap_or(0) = 0, a single digit
    have hweq : w = 1 := by omega
    subst hweq
    have hshift : ¬ (256 < 2 ^ (8 * 1)) := by norm_num
    obtain ⟨d, rest, hdata⟩ : ∃ d rest, data = d :: rest := by
      cases data with
      | nil => simp at hlen
      | cons d rest => exact ⟨d, rest, rfl⟩
    subst hdata
    have hd : d < 256 := h d (by simp)
    simp [hshift, beVal, Nat.mod_eq_of_lt hd]
  · -- w ≥ 2: the shift is 256 and no accumulation step wraps
    have hshift : 256 < 2 ^ (8 * w) := by
      calc (256 : Nat) = 2 ^ 8 := by norm_num
        _ < 2 ^ (8 * w) := Nat.pow_lt_pow_right (by norm_num) (by omega)
    rw [if_pos hshift]
    have hmod := foldl_mod (data.take w) 0 (2 ^ (8 * w)) htw
      (by simpa using hbe)
    rw [hmod, foldl_be]
    simp [beVal]

theorem armOk_readNum (B w : Nat) (g : Nat → Unpacked) (hw : 1 ≤ w) :
    ArmOk B (readNum w g) := by
  intro d hd _
  rcases unpack_unsigned_total w d hw hd with ⟨heq, _⟩ | ⟨n, heq, hle⟩
  · exact ⟨.error .endOfData, by simp [readNum, heq],
      fun v rest h2 => nomatch h2⟩
  · refine ⟨.ok (g n, d.drop w), by simp [readNum, heq], ?_⟩
    rintro v rest h2
    cases h2
    exact ⟨wf_drop hd w, by rw [List.length_drop]; omega⟩

theorem armOk_readRawV (B size : Nat) : ArmOk B (readRawV size) := by
  intro d hd _
  rcases unpack_raw_total size d with ⟨heq, _⟩ | ⟨heq, hle⟩
  · exact ⟨.error .endOfData, by simp [readRawV, heq],
      fun v rest h2 => nomatch h2⟩
  · refine ⟨.ok (.Raw (d.take size), d.drop size),
      by simp [readRawV, heq], ?_⟩
    rintro v rest h2
    cases h2
    exact ⟨wf_drop hd size, by rw [List.length_drop]; omega⟩

theorem armOk_readStrV (B size : Nat) : ArmOk B (readStrV size) := by
  intro d hd _
  rcases unpack_string_total size d with ⟨e, heq⟩ | ⟨s, heq, hle⟩
  · exact ⟨.error e, by simp [readStrV, heq], fun v rest h2 => nomatch h2⟩
  · refine ⟨.ok (.String s, d.drop size), by simp [readStrV, heq], ?_⟩
    rintro v rest h2
    cases h2
    exact ⟨wf_drop hd size, by rw [List.length_drop]; omega⟩

theorem armOk_readSizedStr (B w : Nat) (hw : 1 ≤ w) :
    ArmOk B (readSizedStr w) := by
  intro d hd hB
  rcases unpack_unsigned_total w d hw hd with ⟨heq, _⟩ | ⟨n, heq, hle⟩
  · exact ⟨.error .endOfData, by simp [readSizedStr, heq],
      fun v rest h2 => nomatch h2⟩
  · obtain ⟨r, hr, hok⟩ := armOk_readStrV B n (d.drop w) (wf_drop hd w)
      (by rw [List.length_drop]; omega)
    refine ⟨r, by simp [readSizedStr, heq]; exact hr, ?_⟩
    intro v rest h2
    obtain ⟨hwf2, hle2⟩ := hok v rest h2
    rw [List.length_drop] at hle2
    exact ⟨hwf2, by omega⟩

theorem armOk_readSizedRaw (B w : Nat) (hw : 1 ≤ w) :
    ArmOk B (readSizedRaw w) := by
  intro d hd hB
  rcases unpack_unsigned_total w d hw hd with ⟨heq, _⟩ | ⟨n, heq, hle⟩
  · exact ⟨.error .endOfData, by simp [readSizedRaw, heq],
      fun v rest h2 => nomatch h2⟩
  · obtain ⟨r, hr, hok⟩ := armOk_readRawV B n (d.drop w) (wf_drop hd w)
      (by rw [List.length_drop]; omega)
    refine ⟨r, by simp [readSizedRaw, heq]; exact hr, ?_⟩
    intro v rest h2
    obtain ⟨hwf2, hle2⟩ := hok v rest h2
    rw [List.length_drop] at hle2
    exact ⟨hwf2, by omega⟩

theorem unpack_array_total (B : Nat)
    (u : List Nat → Option (Except Error (Unpacked × List Nat)))
    (Hu : UOk B u) :
    ∀ size d, WfBytes d → d.length < B →
      ∃ r, unpack_array u size d = some r ∧
        ∀ vs rest, r = Except.ok (vs, rest) →
          WfBytes rest ∧ rest.length ≤ d.length := by
  intro size
  induction size with
  | zero =>
    intro d hd _
    exact ⟨.ok ([], d), rfl,
      by rintro vs rest h2; cases h2; exact ⟨hd, Nat.le_refl _⟩⟩
  | succ size ih =>
    intro d hd hB
    obtain ⟨r1, hr1, hok1⟩ := Hu d hd hB
    rcases r1 with e | ⟨v, rest⟩
    · exact ⟨.error e, by simp [unpack_array, hr1],
        fun vs r h2 => nomatch h2⟩
    · obtain ⟨hwf1, hlt1⟩ := hok1 v rest rfl
      obtain ⟨r2, hr2, hok2⟩ := ih rest hwf1 (by omega)
      rcases r2 with e | ⟨vs, rest2⟩
      · exact ⟨.error e, by simp [unpack_array, hr1, hr2],
          fun vs2 r h2 => nomatch h2⟩
      · obtain ⟨hwf2, hle2⟩ := hok2 vs rest2 rfl
        exact ⟨.ok (v :: vs, rest2), by simp [unpack_array, hr1, hr2],
          by rintro vs2 r h2; cases h2; exact ⟨hwf2, by omega⟩⟩

theorem unpack_map_total (B : Nat)
    (u : List Nat → Option (Except Error (Unpacked × List Nat)))
    (Hu : UOk B u) :
    ∀ size d acc, WfBytes d → d.length < B →
      ∃ r, unpack_map u size d acc = some r ∧
        ∀ m rest, r = Except.ok (m, rest) →
          WfBytes rest ∧ rest.length ≤ d.length := by
  intro size
  induction size with
  | zero =>
    intro d acc hd _
    exact ⟨.ok (acc, d), rfl,
      by rintro m rest h2; cases h2; exact ⟨hd, Nat.le_refl _⟩⟩
  | succ size ih =>
    intro d acc hd hB
    obtain ⟨r1, hr1, hok1⟩ := Hu d hd hB
    rcases r1 with e | ⟨k, rest1⟩
    · exact ⟨.error e, by simp [unpack_map, hr1], fun m r h2 => nomatch h2⟩
    · obtain ⟨hwf1, hlt1⟩ := hok1 k rest1 rfl
      obtain ⟨r2, hr2, hok2⟩ := Hu rest1 hwf1 (by omega)
      rcases r2 with e | ⟨v, rest2⟩
      · exact ⟨.error e, by simp [unpack_map, hr1, hr2],
          fun m r h2 => nomatch h2⟩
      · obtain ⟨hwf2, hlt2⟩ := hok2 v rest2 rfl
        obtain ⟨r3, hr3, hok3⟩ := ih rest2 (insertU acc k v) hwf2 (by omega)
        refine ⟨r3, by simp [unpack_map, hr1, hr2]; exact hr3, ?_⟩
        intro m rest h2
        obtain ⟨hwf3, hle3⟩ := hok3 m rest h2
        exact ⟨hwf3, by omega⟩

theorem armOk_readArr (B : Nat)
    (u : List Nat → Option (Except Error (Unpacked × List Nat)))
    (size : Nat) (Hu : UOk B u) : ArmOk B (readArr u size) := by
  intro d hd hB
  obtain ⟨r, hr, hok⟩ := unpack_array_total B u Hu size d hd hB
  rcases r with e | ⟨vs, rest⟩
  · exact ⟨.error e, by simp [readArr, hr], fun v r h2 => nomatch h2⟩
  · obtain ⟨hwf, hle⟩ := hok vs rest rfl
    exact ⟨.ok (.Array vs, rest), by simp [readArr, hr],
      by rintro v r h2; cases h2; exact ⟨hwf, hle⟩⟩

theorem armOk_readMap (B : Nat)
    (u : List Nat → Option (Except Error (Unpacked × List Nat)))
    (size : Nat) (Hu : UOk B u) : ArmOk B (readMap u size) := by
  intro d hd hB
  obtain ⟨r, hr, hok⟩ := unpack_map_total B u Hu size d [] hd hB
  rcases r with e | ⟨m, rest⟩
  · exact ⟨.error e, by simp [readMap, hr], fun v r h2 => nomatch h2⟩
  · obtain ⟨hwf, hle⟩ := hok m rest rfl
    exact ⟨.ok (.Map m, rest), by simp [readMap, hr],
      by rintro v r h2; cases h2; exact ⟨hwf, hle⟩⟩

theorem armOk_readSizedArr (B : Nat)
    (u : List Nat → Option (Except Error (Unpacked × List Nat)))
    (w : Nat) (hw : 1 ≤ w) (Hu : UOk B u) : ArmOk B (readSizedArr u w) := by
  intro d hd hB
  rcases unpack_unsigned_total w d hw hd with ⟨heq, _⟩ | ⟨n, heq, hle⟩
  · exact ⟨.error .endOfData, by simp [readSizedArr, heq],
      fun v rest h2 => nomatch h2⟩
  · obtain ⟨r, hr, hok⟩ := armOk_readArr B u n Hu (d.drop w) (wf_drop hd w)
      (by rw [List.length_drop]; omega)
    refine ⟨r, by simp [readSizedArr, heq]; exact hr, ?_⟩
    intro v rest h2
    obtain ⟨hwf2, hle2⟩ := hok v rest h2
    rw [List.length_drop] at hle2
    exact ⟨hwf2, by omega⟩

theorem armOk_readSizedMap (B : Nat)
    (u : List Nat → Option (Except Error (Unpacked × List Nat)))
    (w : Nat) (hw : 1 ≤ w) (Hu : UOk B u) : ArmOk B (readSizedMap u w) := by
  intro d hd hB
  rcases unpack_unsigned_total w d hw hd with ⟨heq, _⟩ | ⟨n, heq, hle⟩
  · exact ⟨.error .endOfData, by simp [readSizedMap, heq],
      fun v rest h2 => nomatch h2⟩
  · obtain ⟨r, hr, hok⟩ := armOk_readMap B u n Hu (d.drop w) (wf_drop hd w)
      (by rw [List.length_drop]; omega)
    refine ⟨r, by simp [readSizedMap, heq]; exact hr, ?_⟩
    intro v rest h2
    obtain ⟨hwf2, hle2⟩ := hok v rest h2
    rw [List.length_drop] at hle2
    exact ⟨hwf2, by omega⟩

set_option maxHeartbeats 2000000 in
theorem unpackStep_total (B : Nat)
    (u : List Nat → Option (Except Error (Unpacked × List Nat)))
    (Hu : UOk B u) : UOk (B + 1) (unpackStep u) := by
  intro data h hB
  rcases unpack_unsigned_total 1 data (by norm_num) h with
    ⟨heq, _⟩ | ⟨t, heq, hlen1⟩
  · exact ⟨.error .endOfData, by simp [unpackStep, heq],
      fun v rest h2 => nomatch h2⟩
  · have hwf0 : WfBytes (data.drop 1) := wf_drop h 1
    have hr0len : (data.drop 1).length = data.length - 1 :=
      List.length_drop 1 data
    have hr0lt : (data.drop 1).length < data.length := by omega
    have hr0B : (data.drop 1).length < B := by omega
    have useArm : ∀ f : List Nat → Option (Except Error (Unpacked × List Nat)),
        ArmOk B f →
        ∃ r, f (data.drop 1) = some r ∧
          ∀ v rest, r = Except.ok (v, rest) →
            WfBytes rest ∧ rest.length < data.length := by
      intro f hf
      obtain ⟨r, hr, hok⟩ := hf (data.drop 1) hwf0 hr0B
      exact ⟨r, hr, fun v rest h2 =>
        ⟨(hok v rest h2).1, lt_of_le_of_lt (hok v rest h2).2 hr0lt⟩⟩
    have imm : ∀ v0 : Unpacked,
        ∃ r, (some (Except.ok (v0, data.drop 1)) :
            Option (Except Error (Unpacked × List Nat))) = some r ∧
          ∀ v rest, r = Except.ok (v, rest) →
            WfBytes rest ∧ rest.length < data.length :=
      fun v0 => ⟨.ok (v0, data.drop 1), rfl,
        by rintro v rest h2; cases h2; exact ⟨hwf0, hr0lt⟩⟩
    unfold unpackStep
    rw [heq, obind_some_ok]
    by_cases h1 : t < 0x80
    · rw [if_pos h1]
      exact imm _
    rw [if_neg h1]
    by_cases h2 : t ^^^ 0xE0 < 0x20
    · rw [if_pos h2]
      exact imm _
    rw [if_neg h2]
    by_cases h3 : t ^^^ 0x80 ≤ 0x0F
    · rw [if_pos h3]
      exact useArm _ (armOk_readMap B u _ Hu)
    rw [if_neg h3]
    by_cases h4 : t ^^^ 0x90 ≤ 0x0F
    · rw [if_pos h4]
      exact useArm _ (armOk_readArr B u _ Hu)
    rw [if_neg h4]
    by_cases h5 : t ^^^ 0xA0 ≤ 0x0F
    · rw [if_pos h5]
      exact useArm _ (armOk_readRawV B _)
    rw [if_neg h5]
    by_cases h6 : t ^^^ 0xB0 ≤ 0x0F
    · rw [if_pos h6]
      exact useArm _ (armOk_readStrV B _)
    rw [if_neg h6]
    by_cases h7 : t = 0xC0
    · rw [if_pos h7]
      exact imm _
    rw [if_neg h7]
    by_cases h8 : t = 0xC2
    · rw [if_pos h8]
      exact imm _
    rw [if_neg h8]
    by_cases h9 : t = 0xC3
    · rw [if_pos h9]
      exact imm _
    rw [if_neg h9]
    by_cases h10 : t = 0xCA
    · rw [if_pos h10]
      exact useArm _ (armOk_readNum B 4 _ (by norm_num))
    rw [if_neg h10]
    by_cases h11 : t = 0xCB
    · rw [if_pos h11]
      exact useArm _ (armOk_readNum B 8 _ (by norm_num))
    rw [if_neg h11]
    by_cases h12 : t = 0xCC
    · rw [if_pos h12]
      exact useArm _ (armOk_readNum B 1 _ (by norm_num))
    rw [if_neg h12]
    by_cases h13 : t = 0xCD
    · rw [if_pos h13]
      exact useArm _ (armOk_readNum B 2 _ (by norm_num))
    rw [if_neg h13]
    by_cases h14 : t = 0xCE
    · rw [if_pos h14]
      exact useArm _ (armOk_readNum B 4 _ (by norm_num))
    rw [if_neg h14]
    by_cases h15 : t = 0xCF
    · rw [if_pos h15]
      exact useArm _ (armOk_readNum B 8 _ (by norm_num))
    rw [if_neg h15]
    by_cases h16 : t = 0xD0
    · rw [if_pos h16]
      exact useArm _ (armOk_readNum B 1 _ (by norm_num))
    rw [if_neg h16]
    by_cases h17 : t = 0xD1
    · rw [if_pos h17]
      exact useArm _ (armOk_readNum B 2 _ (by norm_num))
    rw [if_neg h17]
    by_cases h18 : t = 0xD2
    · rw [if_pos h18]
      exact useArm _ (armOk_readNum B 4 _ (by norm_num))
    rw [if_neg h18]
    by_cases h19 : t = 0xD3
    · rw [if_pos h19]
      exact useArm _ (armOk_readNum B 8 _ (by norm_num))
    rw [if_neg h19]
    by_cases h20 : t = 0xD8
    · rw [if_pos h20]
      exact useArm _ (armOk_readSizedStr B 2 (by norm_num))
    rw [if_neg h20]
    by_cases h21 : t = 0xD9
    · rw [if_pos h21]
      exact useArm _ (armOk_readSizedStr B 4 (by norm_num))
    rw [if_neg h21]
    by_cases h22 : t = 0xDA
    · rw [if_pos h22]
      exact useArm _ (armOk_readSizedRaw B 2 (by norm_num))
    rw [if_neg h22]
    by_cases h23 : t = 0xDB
    · rw [if_pos h23]
      exact useArm _ (armOk_readSizedRaw B 4 (by norm_num))
    rw [if_neg h23]
    by_cases h24 : t = 0xDC
    · rw [if_pos h24]
      exact useArm _ (armOk_readSizedArr B u 2 (by norm_num) Hu)
    rw [if_neg h24]
    by_cases h25 : t = 0xDD
    · rw [if_pos h25]
      exact useArm _ (armOk_readSizedArr B u 4 (by norm_num) Hu)
    rw [if_neg h25]
    by_cases h26 : t = 0xDE
    · rw [if_pos h26]
      exact useArm _ (armOk_readSizedMap B u 2 (by norm_num) Hu)
    rw [if_neg h26]
    by_cases h27 : t = 0xDF
    · rw [if_pos h27]
      exact useArm _ (armOk_readSizedMap B u 4 (by norm_num) Hu)
    rw [if_neg h27]
    exact imm _

theorem unpackF_total : ∀ fuel, UOk fuel (unpackF fuel) := by
  intro fuel
  induction fuel with
  | zero => exact fun d _ hB => absurd hB (Nat.not_lt_zero _)
  | succ fuel ih =>
    intro d hd hB
    obtain ⟨r, hr, hok⟩ := unpackStep_total fuel (unpackF fuel) ih d hd hB
    exact ⟨r, by simp only [unpackF]; exact hr, hok⟩

set_option maxRecDepth 2048 in
/-- A tag byte with `(tag XOR 0xE0) < 0x20` lies in `0xE0 ..= 0xFF` and in
particular is not a positive fixint. -/
theorem negfix_range (t : Nat) (ht : t < 256) (h : t ^^^ 0xE0 < 0x20) :
    ¬ t < 0x80 ∧ 0xE0 ≤ t ∧ t ≤ 0xFF := by
  revert h
  revert ht
  revert t
  decide

/-- Reading one byte from a wellformed singleton buffer yields that byte and
an empty cursor. -/
theorem unpack_uint8_singleton (t : Nat) (ht : t < 256) :
    unpack_unsigned 1 [t] = some (.ok (t, [])) := by
  have hwf : WfBytes [t] := by
    intro b hb
    simp at hb
    omega
  have h := (unpack_unsigned_be 1 [t] (Nat.le_refl 1) hwf (by simp)).1
  simpa [beVal] using h

end Lemmas

section Claims

/-- C1: the round-trip property fails on the code as written: the encoder
`Unpacked::pack` hits `unimplemented!()` — an abort, not a byte sequence —
on Raw, String, Array and Map values (among others), so
`decode(encode(v))` is not defined for every constructible Value.  This
theorem evaluates the encoder at such inputs. -/
theorem c1_roundtrip_encoder_unimplemented :
    pack (.Raw []) = none ∧ pack (.String [65]) = none ∧
    pack (.Array []) = none ∧ pack (.Map []) = none :=
  ⟨rfl, rfl, rfl, rfl⟩

/-- C2: the encoder is not total: `Unpacked::pack` aborts with
`unimplemented!()` on every signed integer, on Uint32 / Uint64, and on
Undefined (besides the containers covered under C1).  This theorem
evaluates the encoder at such inputs. -/
theorem c2_encoder_aborts :
    pack (.Int8 5) = none ∧ pack (.Int16 0) = none ∧
    pack (.Int32 0) = none ∧ pack (.Int64 0) = none ∧
    pack (.Uint32 0) = none ∧ pack (.Uint64 0) = none ∧
    pack .Undefined = none :=
  ⟨rfl, rfl, rfl, rfl, rfl, rfl, rfl⟩

/-- C3: hashing is not consistent with structural equality: the `Hash` impl
feeds the `Debug` string to the hasher, and for maps that string lists the
entries in the instance's arbitrary iteration order.  Two maps with the same
entries in different orders are equal under `PartialEq` yet write different
byte streams to the hasher. -/
theorem c3_hash_inconsistent_with_eq :
    eqU (.Map [(.Uint8 1, .Uint8 2), (.Uint8 3, .Uint8 4)])
        (.Map [(.Uint8 3, .Uint8 4), (.Uint8 1, .Uint8 2)]) = true ∧
    hashInput (.Map [(.Uint8 1, .Uint8 2), (.Uint8 3, .Uint8 4)]) ≠
      hashInput (.Map [(.Uint8 3, .Uint8 4), (.Uint8 1, .Uint8 2)]) :=
  ⟨rfl, by decide⟩

/-- C4: decoding fails with exactly the two kinds `EndOfData` and
`StringParseError`, and returns no partial value (a failed decode is an
`Except.error`, which carries no `Unpacked`): any fixed-width read with too
few remaining bytes and any declared-length raw read beyond the buffer give
`EndOfData`; so do the empty buffer and length-prefixed containers whose
declared size exceeds the remaining bytes; declared string bytes that are
not valid UTF-8 give `StringParseError`. -/
theorem c4_error_taxonomy :
    (∀ e : Error, e = .endOfData ∨ e = .stringParseError) ∧
    (∀ w data, data.length < w →
      unpack_unsigned w data = some (.error .endOfData)) ∧
    (∀ size data, data.length < size →
      unpack_raw size data = some (.error .endOfData)) ∧
    unpack [] = some (.error .endOfData) ∧
    unpack [0xDA, 0x00, 0x05, 0x01, 0x02] = some (.error .endOfData) ∧
    unpack [0xDC, 0x00, 0x02, 0x01] = some (.error .endOfData) ∧
    unpack [0xB1, 0xFF] = some (.error .stringParseError) := by
  refine ⟨?_, ?_, ?_, rfl, rfl, rfl, rfl⟩
  · intro e
    cases e
    · exact Or.inl rfl
    · exact Or.inr rfl
  · intro w data h
    unfold unpack_unsigned
    rw [if_pos h]
  · intro size data h
    unfold unpack_raw
    rw [if_pos h]

/-- Witness for C4 at concrete inputs: a 2-byte read on a 1-byte buffer and
a 3-byte raw read on a 2-byte buffer both report `EndOfData`. -/
theorem c4_error_taxonomy_witness :
    unpack_unsigned 2 [5] = some (.error .endOfData) ∧
    unpack_raw 3 [1, 2] = some (.error .endOfData) :=
  ⟨c4_error_taxonomy.2.1 2 [5] (by norm_num),
   c4_error_taxonomy.2.2.1 3 [1, 2] (by norm_num)⟩

/-- C5: every tag byte outside the dispatch table — not a positive fixint,
not a negative fixint, not a fixed-size map / array / raw / string, and not
one of the explicit tags 0xC0, 0xC2, 0xC3, 0xCA-0xCF, 0xD0-0xD3, 0xD8-0xDF —
decodes successfully to the Undefined variant. -/
theorem c5_unknown_tag_decodes_undefined :
    ∀ t, t < 256 → ¬ t < 0x80 → ¬ t ^^^ 0xE0 < 0x20 →
      ¬ t ^^^ 0x80 ≤ 0x0F → ¬ t ^^^ 0x90 ≤ 0x0F →
      ¬ t ^^^ 0xA0 ≤ 0x0F → ¬ t ^^^ 0xB0 ≤ 0x0F →
      t ∉ ([0xC0, 0xC2, 0xC3, 0xCA, 0xCB, 0xCC, 0xCD, 0xCE, 0xCF,
            0xD0, 0xD1, 0xD2, 0xD3, 0xD8, 0xD9, 0xDA, 0xDB, 0xDC,
            0xDD, 0xDE, 0xDF] : List Nat) →
      unpack [t] = some (.ok .Undefined) := by
  intro t ht h1 h2 h3 h4 h5 h6 h7
  simp only [List.mem_cons, List.not_mem_nil, or_false, not_or] at h7
  obtain ⟨n1, n2, n3, n4, n5, n6, n7, n8, n9, n10, n11, n12, n13, n14, n15,
    n16, n17, n18, n19, n20, n21⟩ := h7
  have hstep : unpackF 2 [t] = some (.ok (.Undefined, [])) := by
    show unpackStep (unpackF 1) [t] = _
    unfold unpackStep
    rw [unpack_uint8_singleton t ht, obind_some_ok]
    rw [if_neg h1, if_neg h2, if_neg h3, if_neg h4, if_neg h5, if_neg h6,
      if_neg n1, if_neg n2, if_neg n3, if_neg n4, if_neg n5, if_neg n6,
      if_neg n7, if_neg n8, if_neg n9, if_neg n10, if_neg n11, if_neg n12,
      if_neg n13, if_neg n14, if_neg n15, if_neg n16, if_neg n17,
      if_neg n18, if_neg n19, if_neg n20, if_neg n21]
  show unpack [t] = some (.ok .Undefined)
  unfold unpack
  rw [show ([t] : List Nat).length + 1 = 2 from rfl, hstep]

/-- Witness for C5 at tag 0xC1 (the gap between null and false in the tag
table). -/
theorem c5_unknown_tag_decodes_undefined_witness :
    unpack [0xC1] = some (.ok .Undefined) :=
  c5_unknown_tag_decodes_undefined 0xC1 (by norm_num) (by decide)
    (by decide) (by decide) (by decide) (by decide) (by decide)
    (by decide)

/-- C6: every tag byte with `(tag XOR 0xE0) < 0x20`, i.e. every tag in
0xE0-0xFF, decodes (from the one-byte buffer) to Int8 with value
`(tag XOR 0xE0) - 32` — the xor result is below 0x20, so its reinterpretation
as a signed 8-bit integer is itself — a value in -32 ..= -1; in particular
tag 0xE1 yields Int8(-31). -/
theorem c6_negative_fixint :
    (∀ t, t < 256 → t ^^^ 0xE0 < 0x20 →
      unpack [t] = some (.ok (.Int8 (((t ^^^ 0xE0 : Nat) : Int) - 32))) ∧
      (-32 : Int) ≤ ((t ^^^ 0xE0 : Nat) : Int) - 32 ∧
      ((t ^^^ 0xE0 : Nat) : Int) - 32 ≤ -1 ∧
      0xE0 ≤ t ∧ t ≤ 0xFF) ∧
    unpack [0xE1] = some (.ok (.Int8 (-31))) := by
  constructor
  · intro t ht h
    obtain ⟨h1, hlo, hhi⟩ := negfix_range t ht h
    have hstep : unpackF 2 [t] =
        some (.ok (.Int8 (((t ^^^ 0xE0 : Nat) : Int) - 32), [])) := by
      show unpackStep (unpackF 1) [t] = _
      unfold unpackStep
      rw [unpack_uint8_singleton t ht, obind_some_ok]
      rw [if_neg h1, if_pos h]
    refine ⟨?_, by omega, by omega, hlo, hhi⟩
    show unpack [t] = _
    unfold unpack
    rw [show ([t] : List Nat).length + 1 = 2 from rfl, hstep]
  · rfl

/-- Witness for C6 at tag 0xE1. -/
theorem c6_negative_fixint_witness :
    unpack [0xE1] =
      some (.ok (.Int8 (((0xE1 ^^^ 0xE0 : Nat) : Int) - 32))) ∧
    (-32 : Int) ≤ ((0xE1 ^^^ 0xE0 : Nat) : Int) - 32 ∧
    ((0xE1 ^^^ 0xE0 : Nat) : Int) - 32 ≤ -1 ∧
    0xE0 ≤ 0xE1 ∧ 0xE1 ≤ 0xFF :=
  c6_negative_fixint.1 0xE1 (by norm_num) (by decide)

/-- C7: the unsigned readers at widths 1, 2, 4 and 8 all produce the
big-endian most-significant-first value described by the iteration
`value = value * 256 + next_byte` over exactly `w` bytes (the accumulation
never wraps: the result is below `2 ^ (8 * w)`); reading
`[1,2,3,4,5,6,7,8]` at width 8 yields 72623859790382856. -/
theorem c7_big_endian_readers :
    (∀ w, (w = 1 ∨ w = 2 ∨ w = 4 ∨ w = 8) → ∀ data, WfBytes data →
      w ≤ data.length →
      unpack_unsigned w data =
        some (.ok (beVal (data.take w), data.drop w)) ∧
      beVal (data.take w) < 2 ^ (8 * w)) ∧
    unpack_unsigned 8 [1, 2, 3, 4, 5, 6, 7, 8] =
      some (.ok (72623859790382856, [])) ∧
    beVal [1, 2, 3, 4, 5, 6, 7, 8] = 72623859790382856 := by
  refine ⟨?_, rfl, rfl⟩
  intro w hw data h hlen
  exact unpack_unsigned_be w data
    (by rcases hw with rfl | rfl | rfl | rfl <;> norm_num) h hlen

/-- Witness for C7 at width 2 on the buffer [1, 2, 3]. -/
theorem c7_big_endian_readers_witness :
    unpack_unsigned 2 [1, 2, 3] =
      some (.ok (beVal (([1, 2, 3] : List Nat).take 2),
        ([1, 2, 3] : List Nat).drop 2)) ∧
    beVal (([1, 2, 3] : List Nat).take 2) < 2 ^ (8 * 2) :=
  c7_big_endian_readers.1 2 (Or.inr (Or.inl rfl)) [1, 2, 3] (by decide)
    (by norm_num)

/-- C8: structural equality on Values is not reflexive — the catch-all arm
of the `PartialEq` match makes `Undefined == Undefined` evaluate to false —
and an unrecognized tag decodes to Undefined, so two decodes of the same
unrecognized tag byte yield values that do not compare equal. -/
theorem c8_eq_not_reflexive :
    eqU .Undefined .Undefined = false ∧
    unpack [0xC1] = some (.ok .Undefined) ∧
    ¬ (∀ v, eqU v v = true) :=
  ⟨rfl, rfl, fun h => absurd (h .Undefined) (by decide)⟩

/-- C9: decoding is panic-free on every buffer of actual bytes: the decoder
(with its abort possibilities — failed byte conversions and exhausted
recursion fuel — modelled as `none`) always returns `some`, i.e. an `Ok`
value or an `Err`, never an abort. -/
theorem c9_decode_never_aborts :
    ∀ data, WfBytes data → ∃ r, unpack data = some r := by
  intro data h
  obtain ⟨r, hr, _⟩ := unpackF_total (data.length + 1) data h
    (Nat.lt_succ_self _)
  rcases r with e | ⟨v, rest⟩
  · refine ⟨.error e, ?_⟩
    unfold unpack
    rw [hr]
  · refine ⟨.ok v, ?_⟩
    unfold unpack
    rw [hr]

/-- Witness for C9 on a concrete nested buffer (an array of two values). -/
theorem c9_decode_never_aborts_witness :
    ∃ r, unpack [0x92, 0xC0, 0xC3] = some r :=
  c9_decode_never_aborts [0x92, 0xC0, 0xC3] (by decide)

/-- C10 counterexample: a later map key *equal* to an earlier one does not
always overwrite it.  The bytes decode a 2-entry map whose keys are
`Float(+0.0)` and `Float(-0.0)`: they are equal under the IEEE `f32`
equality of `PartialEq`, but their `Debug` strings — and hence the byte
streams this type's `Hash` impl feeds the hasher — differ, so the
hash-first `HashMap::insert` never eq-compares them and stores both
entries.  Decoding succeeds with the map at its full declared size instead
of overwriting. -/
theorem c10_equal_key_not_overwritten :
    eqU (.Float 0x00000000) (.Float 0x80000000) = true ∧
    hashInput (.Float 0x00000000) ≠ hashInput (.Float 0x80000000) ∧
    unpack [0x82, 0xCA, 0x00, 0x00, 0x00, 0x00, 0x01,
            0xCA, 0x80, 0x00, 0x00, 0x00, 0x02] =
      some (.ok (.Map [(.Float 0x00000000, .Uint8 1),
                       (.Float 0x80000000, .Uint8 2)])) :=
  ⟨rfl, by decide, rfl⟩

/-- C10 (amended): when a decoded map's later key is equal to an earlier one
**and** feeds the hasher the same byte stream (so the hash-first insert
actually reaches the eq comparison), the later entry's value overwrites the
earlier one in place — same map size, lookup finds the new value — so
decoding still succeeds and the map can have fewer entries than its
declared size: the 2-entry map bytes `[0x82, 1, 2, 1, 3]` decode to the
1-entry map `Uint8(1) : Uint8(3)`.  An equal key with a different hasher
stream is instead appended (see the counterexample). -/
theorem c10_repeated_key_overwrites_amended :
    (∀ m k v, (∃ p ∈ m, hashInput p.1 = hashInput k ∧ eqU p.1 k = true) →
      (insertU m k v).length = m.length ∧
      lookupU (insertU m k v) k = some v) ∧
    unpack [0x82, 1, 2, 1, 3] =
      some (.ok (.Map [(.Uint8 1, .Uint8 3)])) := by
  constructor
  · intro m k v
    induction m with
    | nil =>
      rintro ⟨p, hp, _⟩
      simp at hp
    | cons hd tl ih =>
      rintro ⟨p, hp, hph, hpe⟩
      obtain ⟨k2, v2⟩ := hd
      by_cases hc : (hashInput k2 == hashInput k && eqU k2 k) = true
      · constructor
        · simp [insertU, hc]
        · simp [insertU, lookupU, hc]
      · rcases List.mem_cons.mp hp with rfl | hptl
        · exact absurd (by simp_all) hc
        · obtain ⟨hlen, hlook⟩ := ih ⟨p, hptl, hph, hpe⟩
          constructor
          · simp [insertU, hc, hlen]
          · simp [insertU, lookupU, hc, hlook]
  · rfl

/-- Witness for the amended C10: inserting key Uint8(1) — equal and
identically hashed — into a singleton map keyed by Uint8(1) keeps size 1
and stores the new value. -/
theorem c10_repeated_key_overwrites_amended_witness :
    (insertU [(.Uint8 1, .Uint8 2)] (.Uint8 1) (.Uint8 3)).length =
      ([(.Uint8 1, .Uint8 2)] :
        List (Unpacked × Unpacked)).length ∧
    lookupU (insertU [(.Uint8 1, .Uint8 2)] (.Uint8 1) (.Uint8 3))
      (.Uint8 1) = some (.Uint8 3) :=
  c10_repeated_key_overwrites_amended.1 [(.Uint8 1, .Uint8 2)] (.Uint8 1)
    (.Uint8 3) ⟨(.Uint8 1, .Uint8 2), by simp, rfl, by decide⟩

end Claims

end BinaryPack
